import Mathlib

/-!
Shallow embedding of `scanner.py` (trend-following DCA backtest).

Prices are modelled as exact rationals (Python floats idealised), a missing
quote (NaN) as `none`.  A pandas `Timestamp` is modelled by its civil date
`(y, m, d)`; chronological comparison and day spans go through the standard
civil-from-days day count, and `to_period("M")` through the `(y, m)` key.
-/

/-- A calendar date, modelling a pandas `Timestamp` at day resolution. -/
structure Date where
  y : Int
  m : Int
  d : Int
deriving DecidableEq

/-- The `to_period("M")` key of a date. -/
def monthKey (dt : Date) : Int × Int := (dt.y, dt.m)

/-- Gregorian leap-year test. -/
def isLeap (y : Int) : Bool := (y % 4 == 0 && y % 100 != 0) || (y % 400 == 0)

/-- Number of days in a month. -/
def daysInMonth (y m : Int) : Int :=
  if m = 2 then (if isLeap y then 29 else 28)
  else if m = 4 ∨ m = 6 ∨ m = 9 ∨ m = 11 then 30
  else 31

/-- `pd.DateOffset(years=n)` subtraction: same month/day, `n` years earlier,
with the day clamped to the target month's length (Feb 29 → Feb 28). -/
def subYears (dt : Date) (n : Int) : Date :=
  { y := dt.y - n, m := dt.m, d := min dt.d (daysInMonth (dt.y - n) dt.m) }

/-- Day count of a civil date (days since 1970-01-01, the standard
civil-from-days algorithm); timestamps compare and subtract through this
count. -/
def daysFromCivil (dt : Date) : Int :=
  let y := if dt.m ≤ 2 then dt.y - 1 else dt.y
  let era := (if 0 ≤ y then y else y - 399) / 400
  let yoe := y - era * 400
  let mp := if 2 < dt.m then dt.m - 3 else dt.m + 9
  let doy := (153 * mp + 2) / 5 + dt.d - 1
  let doe := yoe * 365 + yoe / 4 - yoe / 100 + doy
  era * 146097 + doe - 719468

/-- `index.max()`: the chronologically greatest date of a list (head-seeded). -/
def maxDate : List Date → Date
  | [] => ⟨0, 0, 0⟩
  | dt :: rest => rest.foldl (fun a b => if daysFromCivil a < daysFromCivil b then b else a) dt

/-- `.min()` of a group of timestamps: the chronologically least date. -/
def minByDay : List Date → Option Date
  | [] => none
  | dt :: rest =>
      some (rest.foldl (fun a b => if daysFromCivil b < daysFromCivil a then b else a) dt)

abbrev Ticker := String

/-- A date-indexed close-price table: `index` is the row order, `tickers` the
column order, and `price d t` the cell (NaN modelled as `none`). -/
structure PriceTable where
  index : List Date
  tickers : List Ticker
  price : Date → Ticker → Option Rat

/-- The parameters fixed during one simulation loop of `run_backtest`. -/
structure SimCtx where
  tickers : List Ticker
  price : Date → Ticker → Option Rat
  sig : Date → Ticker → Bool
  contribution : Rat
  cds : List Date

/-- Portfolio state: `cash` and per-ticker `shares` (both start at `0.0`). -/
structure PortState where
  cash : Rat
  shares : Ticker → Rat

/-- `cash = 0.0; shares = {t: 0.0 for t in px.columns}`. -/
def initState : PortState := { cash := 0, shares := fun _ => 0 }

/-- `prices.dropna().index.tolist()`: tickers with a quote on `day`, in
column order. -/
def tradableOf (ctx : SimCtx) (day : Date) : List Ticker :=
  ctx.tickers.filter (fun t => (ctx.price day t).isSome)

/-- `prices[t]` for a tradable ticker (defaulted where the code never reads). -/
def priceV (ctx : SimCtx) (day : Date) (t : Ticker) : Rat :=
  (ctx.price day t).getD 0

/-- The exit loop: `for t in tradable: if shares[t] > 0 and not sig.at[day, t]:
cash += shares[t] * prices[t]; shares[t] = 0.0`. -/
def exitStep (ctx : SimCtx) (day : Date) (s : PortState) : PortState :=
  (tradableOf ctx day).foldl
    (fun st t =>
      if 0 < st.shares t ∧ ctx.sig day t = false then
        { cash := st.cash + st.shares t * priceV ctx day t,
          shares := fun u => if u = t then 0 else st.shares u }
      else st)
    s

/-- `[t for t in tradable if bool(sig.at[day, t])]`. -/
def activeOf (ctx : SimCtx) (day : Date) : List Ticker :=
  (tradableOf ctx day).filter (fun t => ctx.sig day t)

/-- The buy loop: `for t in active: shares[t] += per_name / prices[t]`. -/
def buyFold (ctx : SimCtx) (day : Date) (perName : Rat) (sh : Ticker → Rat)
    (l : List Ticker) : Ticker → Rat :=
  l.foldl (fun f t => fun u => if u = t then f t + perName / priceV ctx day t else f u) sh

/-- The contribution block: on a contribution day add the monthly contribution,
and if there are active signals and positive cash, split the cash equally. -/
def contribStep (ctx : SimCtx) (day : Date) (s : PortState) : PortState :=
  if day ∈ ctx.cds then
    let cash1 := s.cash + ctx.contribution
    let active := activeOf ctx day
    if active ≠ [] ∧ 0 < cash1 then
      { cash := 0,
        shares := buyFold ctx day (cash1 / (active.length : Rat)) s.shares active }
    else { cash := cash1, shares := s.shares }
  else s

/-- One simulated day: exits first, then the contribution block. -/
def dayState (ctx : SimCtx) (day : Date) (s : PortState) : PortState :=
  contribStep ctx day (exitStep ctx day s)

/-- `equity = cash + sum(shares[t] * prices[t] for t in tradable)`. -/
def equityOf (ctx : SimCtx) (day : Date) (s : PortState) : Rat :=
  s.cash + ((tradableOf ctx day).map (fun t => s.shares t * priceV ctx day t)).sum

/-- The day-by-day loop of `run_backtest`: returns the final portfolio state
and the recorded `equity_points` in index order. -/
def simulateAux (ctx : SimCtx) : List Date → PortState → PortState × List (Date × Rat)
  | [], s => (s, [])
  | day :: rest, s =>
      ((simulateAux ctx rest (dayState ctx day s)).1,
        (day, equityOf ctx day (dayState ctx day s)) ::
          (simulateAux ctx rest (dayState ctx day s)).2)

/-- Portfolio state after processing a prefix of the index. -/
def stateAfter (ctx : SimCtx) (days : List Date) (s : PortState) : PortState :=
  (simulateAux ctx days s).1

/-- `{d: v for d, v in equity_points}`: keep, for every date, the last recorded
value (dict semantics). -/
def dictPairs : List (Date × Rat) → List (Date × Rat)
  | [] => []
  | p :: rest => if rest.any (fun q => q.1 = p.1) then dictPairs rest else p :: dictPairs rest

/-- `.sort_index()`: sort the (date, value) pairs chronologically. -/
def sortByDay (l : List (Date × Rat)) : List (Date × Rat) :=
  l.insertionSort (fun p q => daysFromCivil p.1 ≤ daysFromCivil q.1)

/-- Running maximum seeded at `m`. -/
def cummaxAux (m : Rat) : List Rat → List Rat
  | [] => []
  | v :: vs => max m v :: cummaxAux (max m v) vs

/-- `equity_curve.cummax()`. -/
def cummaxList : List Rat → List Rat
  | [] => []
  | v :: vs => v :: cummaxAux v vs

/-- `max_drawdown`: minimum of `equity / cummax(equity) - 1`, `0.0` when the
curve is empty. -/
def max_drawdown (vals : List Rat) : Rat :=
  let dd := List.zipWith (fun v m => v / m - 1) vals (cummaxList vals)
  match dd with
  | [] => 0
  | x :: xs => xs.foldl min x

/-- The distinct `to_period("M")` keys of an index. -/
def monthsOf (index : List Date) : List (Int × Int) :=
  (index.map monthKey).dedup

/-- `index.to_series().groupby(index.to_period("M")).min().values`: the first
(chronologically least) trading day of each calendar month present. -/
def contributionDays (index : List Date) : List Date :=
  (monthsOf index).filterMap (fun k => minByDay (index.filter (fun dt => monthKey dt = k)))

/-- The windowed index: `close.loc[close.index >= end_date - DateOffset(years=years)]`. -/
def windowIndex (close : PriceTable) (years : Int) : List Date :=
  let endD := maxDate close.index
  let startD := subYears endD years
  close.index.filter (fun dt => daysFromCivil startD ≤ daysFromCivil dt)

/-- Everything `run_backtest` computes on success, before the CAGR power. -/
structure CoreResult where
  equityCurve : List (Date × Rat)
  invested : Rat
  final_value : Rat
  max_drawdown : Rat
  monthly_contribution_count : Nat
  period_years : Rat
deriving DecidableEq

/-- The successful tail of `run_backtest` on the windowed index `px`. -/
def coreOf (close : PriceTable) (sig : Date → Ticker → Bool) (c : Rat) (years : Int) :
    CoreResult :=
  let px := windowIndex close years
  let cds := contributionDays px
  let ctx : SimCtx := ⟨close.tickers, close.price, sig, c, cds⟩
  let pts := (simulateAux ctx px initState).2
  let curve := sortByDay (dictPairs pts)
  let firstD := (curve.headD (⟨0, 0, 0⟩, 0)).1
  let lastD := (curve.getLastD (⟨0, 0, 0⟩, 0)).1
  { equityCurve := curve,
    invested := c * (cds.length : Rat),
    final_value := (curve.getLastD (⟨0, 0, 0⟩, 0)).2,
    max_drawdown := max_drawdown (curve.map (fun p => p.2)),
    monthly_contribution_count := cds.length,
    period_years := ((daysFromCivil lastD - daysFromCivil firstD : Int) : Rat) / (1461 / 4 : Rat) }

/-- `run_backtest` up to (and excluding) the CAGR power: raises on an empty
price table, raises when fewer than 252 windowed rows remain, otherwise
produces the `CoreResult`.  `365.25` is the exact rational `1461/4`. -/
def run_backtestCore (close : PriceTable) (sig : Date → Ticker → Bool) (c : Rat)
    (years : Int) : Except String CoreResult :=
  if close.index = [] ∨ close.tickers = [] then
    Except.error "Close prices are empty."
  else if (windowIndex close years).length < 252 then
    Except.error "Not enough data for a meaningful backtest window."
  else
    Except.ok (coreOf close sig c years)

/-- `cagr = (final_value / invested) ** (1 / period_years) - 1 if invested > 0
and period_years > 0 else 0.0`, with the float power idealised as the real
power. -/
noncomputable def cagrOf (r : CoreResult) : Real :=
  if 0 < r.invested ∧ 0 < r.period_years then
    Real.rpow ((r.final_value : Real) / (r.invested : Real)) (1 / (r.period_years : Real)) - 1
  else 0

/-- The `BacktestResult` dataclass. -/
structure BacktestResult where
  cagr : Real
  invested : Rat
  final_value : Rat
  max_drawdown : Rat
  monthly_contribution_count : Nat

/-- `run_backtest`, returning the full dataclass. -/
noncomputable def run_backtest (close : PriceTable) (sig : Date → Ticker → Bool)
    (c : Rat) (years : Int) : Except String BacktestResult :=
  (run_backtestCore close sig c years).map (fun r =>
    { cagr := cagrOf r,
      invested := r.invested,
      final_value := r.final_value,
      max_drawdown := r.max_drawdown,
      monthly_contribution_count := r.monthly_contribution_count })

/-- The close column of ticker `t`, indexed by row position. -/
def closeCol (T : PriceTable) (t : Ticker) (i : Nat) : Option Rat :=
  match T.index.get? i with
  | some dt => T.price dt t
  | none => none

/-- `close.rolling(w).mean()` at row `i`: the mean of the trailing `w` cells
when the window is full and entirely non-NaN, otherwise NaN. -/
def rollingMeanAt (xs : Nat → Option Rat) (w : Nat) (i : Nat) : Option Rat :=
  if w ≤ i + 1 then
    let vals := (List.range w).map (fun j => xs (i + 1 - w + j))
    if vals.all (fun v => v.isSome) then
      some ((vals.map (fun v => v.getD 0)).sum / (w : Rat))
    else none
  else none

/-- A pandas `>` between two possibly-NaN cells: `False` when either is NaN. -/
def optGT (a b : Option Rat) : Bool :=
  match a, b with
  | some x, some y => decide (y < x)
  | _, _ => false

/-- The 200-period moving average of ticker `t` at row `i`. -/
def dmaAt (T : PriceTable) (t : Ticker) (i : Nat) : Option Rat :=
  rollingMeanAt (closeCol T t) 200 i

/-- `build_signals` at row `i`, ticker `t`:
`(close > dma_200) & (dma_200 > dma_200.shift(20))`. -/
def signalAt (T : PriceTable) (i : Nat) (t : Ticker) : Bool :=
  optGT (closeCol T t i) (dmaAt T t i) &&
    optGT (dmaAt T t i) (if 20 ≤ i then dmaAt T t (i - 20) else none)

/-- A signal value looked up by date (`sig.loc[day]`): the signal at the first
row position carrying that date, `False` off the index. -/
def dateSignal (T : PriceTable) (t : Ticker) (dt : Date) : Bool :=
  match T.index.findIdx? (fun e => e = dt) with
  | some i => signalAt T i t
  | none => false

/-- A boolean signal table: row index plus a per-date, per-ticker lookup. -/
structure SigTable where
  index : List Date
  tickers : List Ticker
  sig : Date → Ticker → Bool

/-- `apply_market_filter`: pass the table through when the filter is off;
otherwise build the proxy's own signal from its close table, keep only the
dates present in the proxy's series, and force every ticker `False` on days
the proxy is not in trend. -/
def apply_market_filter (useFilter : Bool) (S : SigTable) (marketClose : PriceTable) :
    SigTable :=
  if useFilter = false then S
  else
    let proxy := marketClose.tickers.headD ""
    { index := S.index.filter (fun dt => dt ∈ marketClose.index),
      tickers := S.tickers,
      sig := fun dt t => if dateSignal marketClose proxy dt then S.sig dt t else false }

/-- Nonnegativity of a portfolio state (cash and every share count). -/
def PortState.Nonneg (s : PortState) : Prop :=
  0 ≤ s.cash ∧ ∀ t, 0 ≤ s.shares t

/-- Nonnegativity of every quote of a context's price table. -/
def SimCtx.PricesNonneg (ctx : SimCtx) : Prop :=
  ∀ day t, 0 ≤ priceV ctx day t

/-! Concrete inputs used by the witnesses. -/

/-- A synthetic index of `n` consecutive January-2020 dates. -/
def mkIdx (n : Nat) : List Date :=
  (List.range n).map (fun i : Nat => ⟨2020, 1, 1 + (i : Int)⟩)

/-- A one-ticker price table over `mkIdx n` with constant price 1. -/
def tblA (n : Nat) : PriceTable :=
  { index := mkIdx n, tickers := ["A"], price := fun _ t => if t = "A" then some 1 else none }

/-- Signals that are never on. -/
def sigOff : Date → Ticker → Bool := fun _ _ => false

/-- First witness day. -/
def dW1 : Date := ⟨2021, 3, 1⟩

/-- Second witness day. -/
def dW2 : Date := ⟨2021, 3, 2⟩

/-- A tiny two-ticker simulation context: ticker A signals on day `dW1` only,
ticker B never; both days are contribution days; all prices are 1. -/
def ctxW : SimCtx :=
  { tickers := ["A", "B"],
    price := fun _ _ => some 1,
    sig := fun dt t => t = "A" && dt = dW1,
    contribution := 100,
    cds := [dW1, dW2] }

/-- A tiny one-ticker table used by the signal-builder witness. -/
def tblTiny : PriceTable :=
  { index := [dW1, dW2], tickers := ["A"], price := fun _ _ => some 1 }

/-- A tiny signal table for the market-filter witness. -/
def sigTblW : SigTable :=
  { index := [dW1, dW2], tickers := ["A"], sig := fun dt t => t = "A" && dt = dW1 }

/-- An empty price table (no rows). -/
def tblE : PriceTable := { index := [], tickers := ["A"], price := fun _ _ => none }

-- ======================= THEOREMS =======================

theorem daysFromCivil_jan2020 (d : Int) : daysFromCivil ⟨2020, 1, d⟩ = 18261 + d := by
  simp only [daysFromCivil]
  norm_num
  omega

theorem daysFromCivil_jan2015 (d : Int) : daysFromCivil ⟨2015, 1, d⟩ = 16435 + d := by
  simp only [daysFromCivil]
  norm_num
  omega

theorem foldl_maxDate_mem (l : List Date) (a : Date) :
    l.foldl (fun a b => if daysFromCivil a < daysFromCivil b then b else a) a ∈ a :: l := by
  induction l generalizing a with
  | nil => simp
  | cons b l ih =>
      simp only [List.foldl_cons]
      by_cases hc : daysFromCivil a < daysFromCivil b
      · rw [if_pos hc]
        rcases List.mem_cons.mp (ih b) with h | h
        · rw [h]; simp
        · simp [h]
      · rw [if_neg hc]
        rcases List.mem_cons.mp (ih a) with h | h
        · rw [h]; simp
        · simp [h]

theorem maxDate_mem (l : List Date) (h : l ≠ []) : maxDate l ∈ l := by
  cases l with
  | nil => exact absurd rfl h
  | cons a l => exact foldl_maxDate_mem l a

theorem minByDay_head (a : Date) (l : List Date)
    (h : ∀ b ∈ l, ¬ daysFromCivil b < daysFromCivil a) :
    minByDay (a :: l) = some a := by
  suffices hs : l.foldl (fun a b => if daysFromCivil b < daysFromCivil a then b else a) a = a by
    simpa [minByDay] using hs
  induction l with
  | nil => rfl
  | cons b l ih =>
      have hb : ¬ daysFromCivil b < daysFromCivil a := h b (List.mem_cons_self b l)
      simp only [List.foldl_cons, if_neg hb]
      exact ih (fun c hc => h c (List.mem_cons_of_mem b hc))

theorem mkIdx_length (n : Nat) : (mkIdx n).length = n := by
  simp [mkIdx]

theorem mem_mkIdx (n : Nat) (dt : Date) :
    dt ∈ mkIdx n ↔ ∃ i, i < n ∧ dt = ⟨2020, 1, 1 + (i : Int)⟩ := by
  simp only [mkIdx, List.mem_map, List.mem_range]
  constructor
  · rintro ⟨i, hi, rfl⟩
    exact ⟨i, hi, rfl⟩
  · rintro ⟨i, hi, rfl⟩
    exact ⟨i, hi, rfl⟩

theorem mkIdx_sorted (n : Nat) :
    (mkIdx n).Pairwise (fun a b => daysFromCivil a < daysFromCivil b) := by
  have h := List.pairwise_lt_range n
  refine (List.pairwise_map).mpr (h.imp ?_)
  intro i j hij
  rw [daysFromCivil_jan2020, daysFromCivil_jan2020]
  omega

theorem mkIdx_headD (n : Nat) (dflt : Date) :
    (mkIdx (n + 1)).headD dflt = ⟨2020, 1, 1⟩ := by
  rw [mkIdx, List.range_succ_eq_map]
  rfl

theorem mkIdx_getLastD (n : Nat) (dflt : Date) :
    (mkIdx (n + 1)).getLastD dflt = ⟨2020, 1, 1 + (n : Int)⟩ := by
  rw [mkIdx, List.range_succ, List.map_append, List.getLastD_eq_getLast?]
  simp

theorem windowIndex_eq_self (close : PriceTable) (years : Int)
    (h : ∀ dt ∈ close.index,
      daysFromCivil (subYears (maxDate close.index) years) ≤ daysFromCivil dt) :
    windowIndex close years = close.index := by
  apply List.filter_eq_self.mpr
  intro a ha
  exact decide_eq_true (h a ha)

theorem windowIndex_tblA (n : Nat) : windowIndex (tblA n) 5 = mkIdx n := by
  apply windowIndex_eq_self
  intro dt hdt
  have hdt' : dt ∈ mkIdx n := hdt
  show daysFromCivil (subYears (maxDate (mkIdx n)) 5) ≤ daysFromCivil dt
  have hne : mkIdx n ≠ [] := List.ne_nil_of_mem hdt'
  obtain ⟨iM, hiM, hM⟩ := (mem_mkIdx n (maxDate (mkIdx n))).mp (maxDate_mem _ hne)
  obtain ⟨i, hi, rfl⟩ := (mem_mkIdx n dt).mp hdt'
  rw [hM]
  show daysFromCivil ⟨2020 - 5, 1, min (1 + (iM : Int)) (daysInMonth (2020 - 5) 1)⟩ ≤ _
  have hdm : daysInMonth (2020 - 5) 1 = 31 := by decide
  rw [hdm, daysFromCivil_jan2020]
  have : daysFromCivil ⟨2020 - 5, 1, min (1 + (iM : Int)) 31⟩
      = daysFromCivil ⟨2015, 1, min (1 + (iM : Int)) 31⟩ := by norm_num
  rw [this, daysFromCivil_jan2015]
  have h1 : min (1 + (iM : Int)) 31 ≤ 31 := min_le_right _ _
  have h2 : (0 : Int) ≤ (i : Int) := Int.natCast_nonneg i
  omega

theorem mkIdx_succ (n : Nat) :
    mkIdx (n + 1)
      = ⟨2020, 1, 1⟩ :: (List.range n).map (fun i : Nat => ⟨2020, 1, 1 + ((i + 1 : Nat) : Int)⟩) := by
  rw [mkIdx, List.range_succ_eq_map, List.map_cons, List.map_map]
  rfl

theorem minByDay_mkIdx (n : Nat) : minByDay (mkIdx (n + 1)) = some ⟨2020, 1, 1⟩ := by
  rw [mkIdx_succ]
  apply minByDay_head
  intro b hb
  obtain ⟨i, _, rfl⟩ := List.mem_map.mp hb
  rw [daysFromCivil_jan2020, daysFromCivil_jan2020]
  omega

theorem monthsOf_mkIdx (n : Nat) : monthsOf (mkIdx (n + 1)) = [(2020, 1)] := by
  have hmap : (mkIdx (n + 1)).map monthKey = List.replicate (n + 1) ((2020 : Int), (1 : Int)) := by
    rw [mkIdx, List.map_map]
    have hconst : (monthKey ∘ fun i : Nat => (⟨2020, 1, 1 + (i : Int)⟩ : Date))
        = Function.const Nat ((2020 : Int), (1 : Int)) := rfl
    rw [hconst, List.map_const, List.length_range]
  rw [monthsOf, hmap, List.replicate_dedup (Nat.succ_ne_zero n)]

theorem contributionDays_mkIdx (n : Nat) :
    contributionDays (mkIdx (n + 1)) = [⟨2020, 1, 1⟩] := by
  rw [contributionDays, monthsOf_mkIdx]
  have hfil : (mkIdx (n + 1)).filter (fun dt => decide (monthKey dt = ((2020 : Int), (1 : Int))))
      = mkIdx (n + 1) := by
    apply List.filter_eq_self.mpr
    intro a ha
    obtain ⟨i, _, rfl⟩ := (mem_mkIdx _ a).mp ha
    simp [monthKey]
  show List.filterMap _ [((2020 : Int), (1 : Int))] = _
  rw [List.filterMap_cons, List.filterMap_nil]
  rw [hfil, minByDay_mkIdx]

theorem run_backtestCore_ok (close : PriceTable) (sig : Date → Ticker → Bool) (c : Rat)
    (years : Int) (h1 : close.index ≠ []) (h2 : close.tickers ≠ [])
    (h3 : ¬ (windowIndex close years).length < 252) :
    run_backtestCore close sig c years = Except.ok (coreOf close sig c years) := by
  rw [run_backtestCore, if_neg (by simp [h1, h2]), if_neg h3]

theorem run_backtestCore_err_empty (close : PriceTable) (sig : Date → Ticker → Bool) (c : Rat)
    (years : Int) (h : close.index = [] ∨ close.tickers = []) :
    run_backtestCore close sig c years = Except.error "Close prices are empty." := by
  rw [run_backtestCore, if_pos h]

theorem run_backtestCore_err_short (close : PriceTable) (sig : Date → Ticker → Bool) (c : Rat)
    (years : Int) (h1 : close.index ≠ []) (h2 : close.tickers ≠ [])
    (h3 : (windowIndex close years).length < 252) :
    run_backtestCore close sig c years
      = Except.error "Not enough data for a meaningful backtest window." := by
  rw [run_backtestCore, if_neg (by simp [h1, h2]), if_pos h3]

theorem exitFold_shares (ctx : SimCtx) (day : Date) (l : List Ticker) (s : PortState)
    (u : Ticker) :
    ((l.foldl
      (fun st t =>
        if 0 < st.shares t ∧ ctx.sig day t = false then
          { cash := st.cash + st.shares t * priceV ctx day t,
            shares := fun v => if v = t then 0 else st.shares v }
        else st) s).shares) u
      = if u ∈ l ∧ 0 < s.shares u ∧ ctx.sig day u = false then 0 else s.shares u := by
  induction l generalizing s with
  | nil => simp
  | cons t l ih =>
      simp only [List.foldl_cons]
      by_cases ht : 0 < s.shares t ∧ ctx.sig day t = false
      · rw [if_pos ht, ih]
        by_cases hut : u = t
        · subst hut
          simp [ht]
        · simp [hut, List.mem_cons]
      · rw [if_neg ht, ih]
        by_cases hut : u = t
        · subst hut
          have hcond : ¬ (0 < s.shares u ∧ ctx.sig day u = false) := ht
          simp [hcond]
        · simp [hut, List.mem_cons]

theorem exitFold_cash (ctx : SimCtx) (day : Date) (l : List Ticker) (hnd : l.Nodup)
    (s : PortState) :
    ((l.foldl
      (fun st t =>
        if 0 < st.shares t ∧ ctx.sig day t = false then
          { cash := st.cash + st.shares t * priceV ctx day t,
            shares := fun v => if v = t then 0 else st.shares v }
        else st) s).cash)
      = s.cash + (l.map (fun t =>
          if 0 < s.shares t ∧ ctx.sig day t = false
          then s.shares t * priceV ctx day t else 0)).sum := by
  induction l generalizing s with
  | nil => simp
  | cons t l ih =>
      have htl : t ∉ l := (List.nodup_cons.mp hnd).1
      have hnd' : l.Nodup := (List.nodup_cons.mp hnd).2
      simp only [List.foldl_cons, List.map_cons, List.sum_cons]
      by_cases ht : 0 < s.shares t ∧ ctx.sig day t = false
      · rw [if_pos ht, if_pos ht, ih hnd']
        have hmap : (l.map (fun v =>
            if 0 < (if v = t then 0 else s.shares v) ∧ ctx.sig day v = false
            then (if v = t then 0 else s.shares v) * priceV ctx day v else 0))
            = (l.map (fun v =>
            if 0 < s.shares v ∧ ctx.sig day v = false
            then s.shares v * priceV ctx day v else 0)) := by
          apply List.map_congr_left
          intro v hv
          have hvt : v ≠ t := fun h => htl (h ▸ hv)
          simp [hvt]
        simp only [hmap]
        ring
      · rw [if_neg ht, if_neg ht, ih hnd']
        ring

theorem buyFold_shares (ctx : SimCtx) (day : Date) (per : Rat) (l : List Ticker)
    (hnd : l.Nodup) (sh : Ticker → Rat) (u : Ticker) :
    buyFold ctx day per sh l u
      = if u ∈ l then sh u + per / priceV ctx day u else sh u := by
  induction l generalizing sh with
  | nil => simp [buyFold]
  | cons t l ih =>
      have htl : t ∉ l := (List.nodup_cons.mp hnd).1
      have hnd' : l.Nodup := (List.nodup_cons.mp hnd).2
      show buyFold ctx day per _ l u = _
      rw [ih hnd']
      by_cases hut : u = t
      · subst hut
        simp [htl]
      · simp [hut, List.mem_cons]

theorem exitStep_shares (ctx : SimCtx) (day : Date) (s : PortState) (u : Ticker) :
    (exitStep ctx day s).shares u
      = if u ∈ tradableOf ctx day ∧ 0 < s.shares u ∧ ctx.sig day u = false
        then 0 else s.shares u :=
  exitFold_shares ctx day (tradableOf ctx day) s u

theorem exitStep_cash (ctx : SimCtx) (day : Date) (hnd : ctx.tickers.Nodup) (s : PortState) :
    (exitStep ctx day s).cash
      = s.cash + ((tradableOf ctx day).map (fun t =>
          if 0 < s.shares t ∧ ctx.sig day t = false
          then s.shares t * priceV ctx day t else 0)).sum :=
  exitFold_cash ctx day (tradableOf ctx day) (hnd.filter _) s

theorem contribStep_not_cd (ctx : SimCtx) (day : Date) (s : PortState)
    (h : day ∉ ctx.cds) : contribStep ctx day s = s := by
  rw [contribStep, if_neg h]

theorem contribStep_cd_buy (ctx : SimCtx) (day : Date) (s : PortState)
    (h : day ∈ ctx.cds) (ha : activeOf ctx day ≠ []) (hc : 0 < s.cash + ctx.contribution) :
    contribStep ctx day s
      = { cash := 0,
          shares := buyFold ctx day
            ((s.cash + ctx.contribution) / ((activeOf ctx day).length : Rat))
            s.shares (activeOf ctx day) } := by
  rw [contribStep, if_pos h]
  exact if_pos ⟨ha, hc⟩

theorem contribStep_cd_nobuy (ctx : SimCtx) (day : Date) (s : PortState)
    (h : day ∈ ctx.cds) (hn : ¬ (activeOf ctx day ≠ [] ∧ 0 < s.cash + ctx.contribution)) :
    contribStep ctx day s = { cash := s.cash + ctx.contribution, shares := s.shares } := by
  rw [contribStep, if_pos h]
  exact if_neg hn

theorem exitStep_nonneg (ctx : SimCtx) (day : Date) (hp : ctx.PricesNonneg) (s : PortState)
    (hs : s.Nonneg) : (exitStep ctx day s).Nonneg := by
  rw [exitStep]
  generalize tradableOf ctx day = l
  induction l generalizing s with
  | nil => exact hs
  | cons t l ih =>
      simp only [List.foldl_cons]
      by_cases ht : 0 < s.shares t ∧ ctx.sig day t = false
      · rw [if_pos ht]
        refine ih _ ⟨add_nonneg hs.1 (mul_nonneg (hs.2 t) (hp day t)), ?_⟩
        intro u
        by_cases hut : u = t
        · simp [hut]
        · simp only [hut, if_false]
          exact hs.2 u
      · rw [if_neg ht]
        exact ih s hs

theorem buyFold_nonneg (ctx : SimCtx) (day : Date) (per : Rat) (hper : 0 ≤ per)
    (hp : ctx.PricesNonneg) (l : List Ticker) (sh : Ticker → Rat) (hsh : ∀ u, 0 ≤ sh u) :
    ∀ u, 0 ≤ buyFold ctx day per sh l u := by
  induction l generalizing sh with
  | nil => exact hsh
  | cons t l ih =>
      show ∀ u, 0 ≤ buyFold ctx day per _ l u
      refine ih _ ?_
      intro u
      by_cases hut : u = t
      · simp only [hut, if_pos rfl]
        exact add_nonneg (hsh t) (div_nonneg hper (hp day t))
      · simp only [hut, if_false]
        exact hsh u

theorem contribStep_nonneg (ctx : SimCtx) (day : Date) (hp : ctx.PricesNonneg)
    (hc : 0 ≤ ctx.contribution) (s : PortState) (hs : s.Nonneg) :
    (contribStep ctx day s).Nonneg := by
  by_cases h : day ∈ ctx.cds
  · by_cases hb : activeOf ctx day ≠ [] ∧ 0 < s.cash + ctx.contribution
    · rw [contribStep_cd_buy ctx day s h hb.1 hb.2]
      refine ⟨le_refl 0, ?_⟩
      exact buyFold_nonneg ctx day _
        (div_nonneg (le_of_lt hb.2) (Nat.cast_nonneg _)) hp _ s.shares hs.2
    · rw [contribStep_cd_nobuy ctx day s h hb]
      exact ⟨add_nonneg hs.1 hc, hs.2⟩
  · rw [contribStep_not_cd ctx day s h]
    exact hs

theorem dayState_nonneg (ctx : SimCtx) (day : Date) (hp : ctx.PricesNonneg)
    (hc : 0 ≤ ctx.contribution) (s : PortState) (hs : s.Nonneg) :
    (dayState ctx day s).Nonneg :=
  contribStep_nonneg ctx day hp hc _ (exitStep_nonneg ctx day hp s hs)

theorem stateAfter_nonneg (ctx : SimCtx) (hp : ctx.PricesNonneg)
    (hc : 0 ≤ ctx.contribution) (days : List Date) (s : PortState) (hs : s.Nonneg) :
    (stateAfter ctx days s).Nonneg := by
  induction days generalizing s with
  | nil => exact hs
  | cons d days ih => exact ih _ (dayState_nonneg ctx d hp hc s hs)

theorem initState_nonneg : initState.Nonneg :=
  ⟨le_refl 0, fun _ => le_refl 0⟩

theorem equityOf_nonneg (ctx : SimCtx) (day : Date) (hp : ctx.PricesNonneg)
    (s : PortState) (hs : s.Nonneg) : 0 ≤ equityOf ctx day s := by
  refine add_nonneg hs.1 (List.sum_nonneg ?_)
  intro x hx
  obtain ⟨t, _, rfl⟩ := List.mem_map.mp hx
  exact mul_nonneg (hs.2 t) (hp day t)

theorem stateAfter_nil (ctx : SimCtx) (s : PortState) : stateAfter ctx [] s = s := rfl

theorem stateAfter_cons (ctx : SimCtx) (d : Date) (days : List Date) (s : PortState) :
    stateAfter ctx (d :: days) s = stateAfter ctx days (dayState ctx d s) := rfl

theorem simulate_snd_length (ctx : SimCtx) (days : List Date) (s : PortState) :
    ((simulateAux ctx days s).2).length = days.length := by
  induction days generalizing s with
  | nil => rfl
  | cons d days ih =>
      show ((d, _) :: (simulateAux ctx days (dayState ctx d s)).2).length = days.length + 1
      rw [List.length_cons, ih]

theorem simulate_snd_map_fst (ctx : SimCtx) (days : List Date) (s : PortState) :
    ((simulateAux ctx days s).2).map Prod.fst = days := by
  induction days generalizing s with
  | nil => rfl
  | cons d days ih =>
      show Prod.fst (d, _) :: ((simulateAux ctx days (dayState ctx d s)).2).map Prod.fst
        = d :: days
      rw [ih]

theorem stateAfter_take_succ (ctx : SimCtx) (days : List Date) (s : PortState) (i : Nat)
    (hi : i < days.length) :
    stateAfter ctx (days.take (i + 1)) s
      = dayState ctx days[i] (stateAfter ctx (days.take i) s) := by
  induction days generalizing s i with
  | nil => exact absurd hi (by simp)
  | cons d days ih =>
      cases i with
      | zero => rfl
      | succ i =>
          have hi' : i < days.length := Nat.lt_of_succ_lt_succ hi
          show stateAfter ctx (d :: days.take (i + 1)) s = _
          rw [stateAfter_cons, ih (dayState ctx d s) i hi']
          rfl

theorem simulate_snd_get (ctx : SimCtx) (days : List Date) (s : PortState) (i : Nat)
    (hi : i < days.length) :
    ((simulateAux ctx days s).2)[i]?
      = some (days[i], equityOf ctx days[i] (stateAfter ctx (days.take (i + 1)) s)) := by
  induction days generalizing s i with
  | nil => exact absurd hi (by simp)
  | cons d days ih =>
      cases i with
      | zero =>
          show ((d, equityOf ctx d (dayState ctx d s))
            :: (simulateAux ctx days (dayState ctx d s)).2)[0]? = _
          rw [List.getElem?_cons_zero]
          rfl
      | succ i =>
          have hi' : i < days.length := Nat.lt_of_succ_lt_succ hi
          show ((d, _) :: (simulateAux ctx days (dayState ctx d s)).2)[i + 1]? = _
          rw [List.getElem?_cons_succ, ih (dayState ctx d s) i hi']
          rfl

theorem simulate_points_nonneg (ctx : SimCtx) (hp : ctx.PricesNonneg)
    (hc : 0 ≤ ctx.contribution) (days : List Date) (s : PortState) (hs : s.Nonneg) :
    ∀ p ∈ (simulateAux ctx days s).2, 0 ≤ p.2 := by
  induction days generalizing s with
  | nil => intro p hp'; exact absurd hp' (List.not_mem_nil p)
  | cons d days ih =>
      intro p hp'
      rcases List.mem_cons.mp hp' with h | h
      · rw [h]
        exact equityOf_nonneg ctx d hp _ (dayState_nonneg ctx d hp hc s hs)
      · exact ih (dayState ctx d s) (dayState_nonneg ctx d hp hc s hs) p h

theorem dictPairs_eq_self (l : List (Date × Rat))
    (h : l.Pairwise (fun p q => p.1 ≠ q.1)) : dictPairs l = l := by
  induction l with
  | nil => rfl
  | cons p rest ih =>
      have h1 : ∀ q ∈ rest, p.1 ≠ q.1 := fun q hq => List.rel_of_pairwise_cons h hq
      have hany : rest.any (fun q => decide (q.1 = p.1)) = false := by
        rw [List.any_eq_false]
        intro q hq
        simp only [decide_eq_true_eq]
        exact fun he => h1 q hq he.symm
      show (if rest.any (fun q => decide (q.1 = p.1)) = true then _ else _) = _
      rw [hany]
      simp only [Bool.false_eq_true, if_false]
      rw [ih (List.Pairwise.of_cons h)]

theorem dictPairs_subset (l : List (Date × Rat)) (p : Date × Rat)
    (hp : p ∈ dictPairs l) : p ∈ l := by
  induction l with
  | nil => exact absurd hp (List.not_mem_nil p)
  | cons q rest ih =>
      by_cases h : rest.any (fun r => decide (r.1 = q.1)) = true
      · have : dictPairs (q :: rest) = dictPairs rest := by
          show (if rest.any (fun r => decide (r.1 = q.1)) = true then _ else _) = _
          rw [if_pos h]
        rw [this] at hp
        exact List.mem_cons_of_mem q (ih hp)
      · have : dictPairs (q :: rest) = q :: dictPairs rest := by
          show (if rest.any (fun r => decide (r.1 = q.1)) = true then _ else _) = _
          rw [if_neg h]
        rw [this] at hp
        rcases List.mem_cons.mp hp with h' | h'
        · exact h' ▸ List.mem_cons_self q rest
        · exact List.mem_cons_of_mem q (ih h')

theorem sortByDay_eq_self (l : List (Date × Rat))
    (h : l.Pairwise (fun p q => daysFromCivil p.1 ≤ daysFromCivil q.1)) :
    sortByDay l = l :=
  List.Sorted.insertionSort_eq h

theorem mem_sortByDay (l : List (Date × Rat)) (p : Date × Rat) :
    p ∈ sortByDay l ↔ p ∈ l :=
  (List.perm_insertionSort _ l).mem_iff

theorem pts_pairwise_lt (ctx : SimCtx) (days : List Date) (s : PortState)
    (h : days.Pairwise (fun a b => daysFromCivil a < daysFromCivil b)) :
    ((simulateAux ctx days s).2).Pairwise
      (fun p q => daysFromCivil p.1 < daysFromCivil q.1) := by
  have hm := simulate_snd_map_fst ctx days s
  rw [← hm] at h
  have h2 := (List.pairwise_map).mp h
  exact h2

theorem foldl_min_bounds (l : List Rat) (a : Rat) (ha : -1 ≤ a ∧ a ≤ 0)
    (hl : ∀ x ∈ l, -1 ≤ x ∧ x ≤ 0) : -1 ≤ l.foldl min a ∧ l.foldl min a ≤ 0 := by
  induction l generalizing a with
  | nil => exact ha
  | cons b l ih =>
      have hb := hl b (List.mem_cons_self b l)
      refine ih (min a b) ⟨le_min ha.1 hb.1, min_le_of_left_le ha.2⟩ ?_
      intro x hx
      exact hl x (List.mem_cons_of_mem b hx)

theorem div_sub_one_bounds (v m : Rat) (hv : 0 ≤ v) (hm : 0 ≤ m) (hvm : v ≤ m) :
    -1 ≤ v / m - 1 ∧ v / m - 1 ≤ 0 := by
  rcases eq_or_lt_of_le hm with hm0 | hm0
  · rw [← hm0, div_zero]
    norm_num
  · have h1 : 0 ≤ v / m := div_nonneg hv hm
    have h2 : v / m ≤ 1 := (div_le_one hm0).mpr hvm
    constructor <;> linarith

theorem dd_elem_bounds (vals : List Rat) (m : Rat) (hm : 0 ≤ m)
    (hv : ∀ v ∈ vals, 0 ≤ v) :
    ∀ x ∈ List.zipWith (fun v mm => v / mm - 1) vals (cummaxAux m vals),
      -1 ≤ x ∧ x ≤ 0 := by
  induction vals generalizing m with
  | nil => intro x hx; exact absurd hx (by simp [cummaxAux])
  | cons v vs ih =>
      intro x hx
      rw [show cummaxAux m (v :: vs) = max m v :: cummaxAux (max m v) vs from rfl] at hx
      rw [List.zipWith_cons_cons] at hx
      rcases List.mem_cons.mp hx with h | h
      · rw [h]
        exact div_sub_one_bounds v (max m v) (hv v (List.mem_cons_self v vs))
          (le_trans hm (le_max_left m v)) (le_max_right m v)
      · exact ih (max m v) (le_trans hm (le_max_left m v))
          (fun u hu => hv u (List.mem_cons_of_mem v hu)) x h

theorem mdd_bounds (vals : List Rat) (hv : ∀ v ∈ vals, 0 ≤ v) :
    -1 ≤ max_drawdown vals ∧ max_drawdown vals ≤ 0 := by
  cases vals with
  | nil =>
      rw [show max_drawdown [] = 0 from rfl]
      norm_num
  | cons v vs =>
      have hv0 : 0 ≤ v := hv v (List.mem_cons_self v vs)
      have hhead : -1 ≤ v / v - 1 ∧ v / v - 1 ≤ 0 :=
        div_sub_one_bounds v v hv0 hv0 (le_refl v)
      have hmd : max_drawdown (v :: vs)
          = (List.zipWith (fun x mm => x / mm - 1) vs (cummaxAux v vs)).foldl
              min (v / v - 1) := rfl
      rw [hmd]
      exact foldl_min_bounds _ _ hhead
        (dd_elem_bounds vs v hv0 (fun u hu => hv u (List.mem_cons_of_mem v hu)))

theorem headD_fst_of_map (pts : List (Date × Rat)) (days : List Date)
    (h : pts.map Prod.fst = days) (p : Date) (v : Rat) :
    (pts.headD (p, v)).1 = days.headD p := by
  cases pts with
  | nil =>
      have : days = [] := by simpa using h.symm
      rw [this]
      rfl
  | cons q rest =>
      have : days = q.1 :: rest.map Prod.fst := by simpa using h.symm
      rw [this]
      rfl

theorem getLastD_fst_of_map (pts : List (Date × Rat)) (days : List Date)
    (h : pts.map Prod.fst = days) (p : Date) (v : Rat) :
    (pts.getLastD (p, v)).1 = days.getLastD p := by
  induction pts generalizing days p v with
  | nil =>
      have : days = [] := by simpa using h.symm
      rw [this]
      rfl
  | cons q rest ih =>
      obtain ⟨q1, q2⟩ := q
      have hd : days = q1 :: rest.map Prod.fst := by simpa using h.symm
      rw [hd, List.getLastD_cons, List.getLastD_cons]
      exact ih (rest.map Prod.fst) rfl q1 q2

/-- C1: for every simulated date in a run of the backtest simulator, the equity
value recorded in the equity curve for that date equals the cash balance plus
the sum over tickers tradable that day of share count times that day's price
(the curve itself being the recorded points, dict-deduplicated and sorted,
which leaves them unchanged on a strictly increasing index). -/
theorem equity_curve_reconciliation (ctx : SimCtx) (days : List Date)
    (hsort : days.Pairwise (fun a b => daysFromCivil a < daysFromCivil b)) :
    sortByDay (dictPairs ((simulateAux ctx days initState).2))
        = (simulateAux ctx days initState).2
    ∧ ∀ i (hi : i < days.length),
        ((simulateAux ctx days initState).2)[i]?
          = some (days[i],
              (stateAfter ctx (days.take (i + 1)) initState).cash
                + ((tradableOf ctx days[i]).map (fun t =>
                    (stateAfter ctx (days.take (i + 1)) initState).shares t
                      * priceV ctx days[i] t)).sum) := by
  constructor
  · have hpw := pts_pairwise_lt ctx days initState hsort
    have hne : ((simulateAux ctx days initState).2).Pairwise (fun p q => p.1 ≠ q.1) :=
      hpw.imp (fun h he => absurd (he ▸ h) (lt_irrefl _))
    rw [dictPairs_eq_self _ hne]
    exact sortByDay_eq_self _ (hpw.imp le_of_lt)
  · intro i hi
    rw [simulate_snd_get ctx days initState i hi]
    rfl

theorem equity_curve_reconciliation_wit :
    [dW1, dW2].Pairwise (fun a b => daysFromCivil a < daysFromCivil b)
    ∧ sortByDay (dictPairs ((simulateAux ctxW [dW1, dW2] initState).2))
        = (simulateAux ctxW [dW1, dW2] initState).2
    ∧ ((simulateAux ctxW [dW1, dW2] initState).2)[1]?
        = some (dW2,
            (stateAfter ctxW ([dW1, dW2].take 2) initState).cash
              + ((tradableOf ctxW dW2).map (fun t =>
                  (stateAfter ctxW ([dW1, dW2].take 2) initState).shares t
                    * priceV ctxW dW2 t)).sum) := by
  have hsort : [dW1, dW2].Pairwise (fun a b => daysFromCivil a < daysFromCivil b) := by
    decide
  refine ⟨hsort, (equity_curve_reconciliation ctxW [dW1, dW2] hsort).1, ?_⟩
  exact (equity_curve_reconciliation ctxW [dW1, dW2] hsort).2 1 (by decide)

/-- C2: on every contribution day, immediately after the contribution block:
with at least one active ticker the cash balance is exactly 0 and each active
ticker gained `(pre-allocation cash / count) / price` shares (others none);
with no active ticker nothing is bought and cash is the prior cash plus the
contribution. -/
theorem contribution_day_cash_allocation (ctx : SimCtx) (hnd : ctx.tickers.Nodup)
    (hp : ctx.PricesNonneg) (hc : 0 ≤ ctx.contribution)
    (days : List Date) (i : Nat) (hi : i < days.length) (hcd : days[i] ∈ ctx.cds) :
    (activeOf ctx days[i] ≠ [] →
        (contribStep ctx days[i]
          (exitStep ctx days[i] (stateAfter ctx (days.take i) initState))).cash = 0
        ∧ (∀ t ∈ activeOf ctx days[i],
            (contribStep ctx days[i]
              (exitStep ctx days[i] (stateAfter ctx (days.take i) initState))).shares t
              = (exitStep ctx days[i] (stateAfter ctx (days.take i) initState)).shares t
                + (((exitStep ctx days[i] (stateAfter ctx (days.take i) initState)).cash
                      + ctx.contribution) / ((activeOf ctx days[i]).length : Rat))
                    / priceV ctx days[i] t)
        ∧ (∀ t, t ∉ activeOf ctx days[i] →
            (contribStep ctx days[i]
              (exitStep ctx days[i] (stateAfter ctx (days.take i) initState))).shares t
              = (exitStep ctx days[i] (stateAfter ctx (days.take i) initState)).shares t))
    ∧ (activeOf ctx days[i] = [] →
        (contribStep ctx days[i]
          (exitStep ctx days[i] (stateAfter ctx (days.take i) initState))).cash
          = (exitStep ctx days[i] (stateAfter ctx (days.take i) initState)).cash
            + ctx.contribution
        ∧ ∀ t,
            (contribStep ctx days[i]
              (exitStep ctx days[i] (stateAfter ctx (days.take i) initState))).shares t
              = (exitStep ctx days[i] (stateAfter ctx (days.take i) initState)).shares t) := by
  have hnn0 : (stateAfter ctx (days.take i) initState).Nonneg :=
    stateAfter_nonneg ctx hp hc _ _ initState_nonneg
  have hs1 : (exitStep ctx days[i] (stateAfter ctx (days.take i) initState)).Nonneg :=
    exitStep_nonneg ctx days[i] hp _ hnn0
  have hand : (activeOf ctx days[i]).Nodup := (hnd.filter _).filter _
  constructor
  · intro hact
    by_cases hpos :
        0 < (exitStep ctx days[i] (stateAfter ctx (days.take i) initState)).cash
              + ctx.contribution
    · rw [contribStep_cd_buy ctx days[i] _ hcd hact hpos]
      refine ⟨rfl, ?_, ?_⟩
      · intro t ht
        show buyFold ctx days[i] _ _ (activeOf ctx days[i]) t = _
        rw [buyFold_shares ctx days[i] _ _ hand _ t, if_pos ht]
      · intro t ht
        show buyFold ctx days[i] _ _ (activeOf ctx days[i]) t = _
        rw [buyFold_shares ctx days[i] _ _ hand _ t, if_neg ht]
    · have hz : (exitStep ctx days[i] (stateAfter ctx (days.take i) initState)).cash
          + ctx.contribution = 0 :=
        le_antisymm (not_lt.mp hpos) (add_nonneg hs1.1 hc)
      rw [contribStep_cd_nobuy ctx days[i] _ hcd (fun hh => hpos hh.2)]
      refine ⟨hz, ?_, fun t _ => rfl⟩
      intro t ht
      rw [hz]
      simp
  · intro hact
    rw [contribStep_cd_nobuy ctx days[i] _ hcd (fun hh => hh.1 hact)]
    exact ⟨rfl, fun t => rfl⟩

theorem contribution_day_cash_allocation_wit :
    (contribStep ctxW dW1
      (exitStep ctxW dW1 (stateAfter ctxW ([dW1].take 0) initState))).cash = 0 := by
  have hp : ctxW.PricesNonneg := by
    intro day t
    show (0 : Rat) ≤ ((some 1 : Option Rat).getD 0)
    norm_num
  have h := contribution_day_cash_allocation ctxW (by decide) hp
    (show (0 : Rat) ≤ 100 by norm_num) [dW1] 0 (by decide) (by decide)
  exact (h.1 (by decide)).1

theorem contribStep_shares_unchanged (ctx : SimCtx) (day : Date) (s : PortState) (t : Ticker)
    (hand : (activeOf ctx day).Nodup) (ht : t ∉ activeOf ctx day) :
    (contribStep ctx day s).shares t = s.shares t := by
  by_cases hcd : day ∈ ctx.cds
  · by_cases hb : activeOf ctx day ≠ [] ∧ 0 < s.cash + ctx.contribution
    · rw [contribStep_cd_buy ctx day s hcd hb.1 hb.2]
      show buyFold ctx day _ _ (activeOf ctx day) t = _
      rw [buyFold_shares ctx day _ _ hand _ t, if_neg ht]
    · rw [contribStep_cd_nobuy ctx day s hcd hb]
  · rw [contribStep_not_cd ctx day s hcd]

/-- C3: on every simulated date the exit step runs strictly before the
contribution step: a tradable ticker held with positive share count whose
signal is off is fully liquidated by the exit step (cash credited with
shares times price for every such ticker, its share count set to 0), it is
not active, and it still holds 0 shares after the whole day, so it receives
nothing from that day's contribution allocation. -/
theorem exits_before_contributions (ctx : SimCtx) (hnd : ctx.tickers.Nodup)
    (days : List Date) (i : Nat) (hi : i < days.length) (t : Ticker)
    (htr : t ∈ tradableOf ctx days[i])
    (hpos : 0 < (stateAfter ctx (days.take i) initState).shares t)
    (hsig : ctx.sig days[i] t = false) :
    (exitStep ctx days[i] (stateAfter ctx (days.take i) initState)).shares t = 0
    ∧ (exitStep ctx days[i] (stateAfter ctx (days.take i) initState)).cash
        = (stateAfter ctx (days.take i) initState).cash
          + ((tradableOf ctx days[i]).map (fun u =>
              if 0 < (stateAfter ctx (days.take i) initState).shares u
                  ∧ ctx.sig days[i] u = false
              then (stateAfter ctx (days.take i) initState).shares u * priceV ctx days[i] u
              else 0)).sum
    ∧ t ∉ activeOf ctx days[i]
    ∧ (stateAfter ctx (days.take (i + 1)) initState).shares t = 0 := by
  have hzero : (exitStep ctx days[i] (stateAfter ctx (days.take i) initState)).shares t = 0 := by
    rw [exitStep_shares, if_pos ⟨htr, hpos, hsig⟩]
  have hna : t ∉ activeOf ctx days[i] := by
    intro hmem
    have := (List.mem_filter.mp hmem).2
    rw [hsig] at this
    exact absurd this (by simp)
  refine ⟨hzero, exitStep_cash ctx days[i] hnd _, hna, ?_⟩
  rw [stateAfter_take_succ ctx days initState i hi]
  show (contribStep ctx days[i] (exitStep ctx days[i] _)).shares t = 0
  rw [contribStep_shares_unchanged ctx days[i] _ t ((hnd.filter _).filter _) hna]
  exact hzero

theorem exits_before_contributions_wit :
    (exitStep ctxW dW2 (stateAfter ctxW ([dW1, dW2].take 1) initState)).shares "A" = 0
    ∧ (stateAfter ctxW ([dW1, dW2].take 2) initState).shares "A" = 0 := by
  have hpos : 0 < (stateAfter ctxW ([dW1, dW2].take 1) initState).shares "A" := by
    simp +decide [stateAfter, simulateAux, dayState, contribStep, exitStep, activeOf,
      tradableOf, buyFold, priceV, initState, ctxW, dW1, dW2]
  have h := exits_before_contributions ctxW (by decide) [dW1, dW2] 1 (by decide) "A"
    (by decide) hpos (by decide)
  exact ⟨h.1, h.2.2.2⟩

theorem tblA_index_ne_nil (n : Nat) (hn : n ≠ 0) : (tblA n).index ≠ [] := by
  show mkIdx n ≠ []
  intro h
  have hlen := congrArg List.length h
  rw [mkIdx_length] at hlen
  exact hn (by simpa using hlen)

theorem tblA_window_length (n : Nat) : (windowIndex (tblA n) 5).length = n := by
  rw [windowIndex_tblA, mkIdx_length]

theorem tblA_prices_nonneg (n : Nat) :
    ∀ day t p, (tblA n).price day t = some p → 0 ≤ p := by
  intro day t p hq
  by_cases ht : t = "A"
  · simp [tblA, ht] at hq
    rw [← hq]
    norm_num
  · simp [tblA, ht] at hq

/-- C8: for every equity curve produced by the simulator (nonnegative
contribution, nonnegative prices), the reported max drawdown — the minimum of
`equity / running-max(equity) - 1`, or 0 for an empty curve — lies in
`[-1, 0]`. -/
theorem drawdown_bounded (close : PriceTable) (sig : Date → Ticker → Bool) (c : Rat)
    (years : Int) (h1 : close.index ≠ []) (h2 : close.tickers ≠ [])
    (h3 : ¬ (windowIndex close years).length < 252)
    (hc : 0 ≤ c) (hp : ∀ day t p, close.price day t = some p → 0 ≤ p) :
    ∃ core, run_backtestCore close sig c years = Except.ok core
      ∧ core.max_drawdown = max_drawdown (core.equityCurve.map (fun p => p.2))
      ∧ -1 ≤ core.max_drawdown ∧ core.max_drawdown ≤ 0 := by
  refine ⟨coreOf close sig c years, run_backtestCore_ok close sig c years h1 h2 h3, rfl, ?_⟩
  have hpn : SimCtx.PricesNonneg
      ⟨close.tickers, close.price, sig, c, contributionDays (windowIndex close years)⟩ := by
    intro day t
    show 0 ≤ (close.price day t).getD 0
    cases hq : close.price day t with
    | none => norm_num
    | some p => exact hp day t p hq
  have hvals : ∀ v ∈ ((coreOf close sig c years).equityCurve.map (fun p => p.2)), 0 ≤ v := by
    intro v hv
    obtain ⟨pair, hpair, rfl⟩ := List.mem_map.mp hv
    have hpair2 : pair ∈ dictPairs ((simulateAux
        ⟨close.tickers, close.price, sig, c, contributionDays (windowIndex close years)⟩
        (windowIndex close years) initState).2) :=
      (mem_sortByDay _ pair).mp hpair
    have hpair3 := dictPairs_subset _ pair hpair2
    exact simulate_points_nonneg _ hpn hc _ initState initState_nonneg pair hpair3
  have hb := mdd_bounds _ hvals
  exact ⟨hb.1, hb.2⟩

theorem drawdown_bounded_wit :
    ∃ core, run_backtestCore (tblA 252) sigOff 200 5 = Except.ok core
      ∧ -1 ≤ core.max_drawdown ∧ core.max_drawdown ≤ 0 := by
  obtain ⟨core, hok, _, hb1, hb2⟩ := drawdown_bounded (tblA 252) sigOff 200 5
    (tblA_index_ne_nil 252 (by norm_num))
    (by intro h; exact List.noConfusion h)
    (by rw [tblA_window_length]; norm_num)
    (by norm_num) (tblA_prices_nonneg 252)
  exact ⟨core, hok, hb1, hb2⟩

/-- C4: on success the reported invested amount equals the contribution times
the number of contribution days of the windowed index (the first trading day
of each calendar month present), and it is unchanged under any other price
table with the same date index and any other signals. -/
theorem invested_formula (close : PriceTable) (sig : Date → Ticker → Bool) (c : Rat)
    (years : Int) (h1 : close.index ≠ []) (h2 : close.tickers ≠ [])
    (h3 : ¬ (windowIndex close years).length < 252) :
    ∃ core, run_backtestCore close sig c years = Except.ok core
      ∧ core.invested = c * (((contributionDays (windowIndex close years)).length : Nat) : Rat)
      ∧ core.monthly_contribution_count = (contributionDays (windowIndex close years)).length
      ∧ ∀ close2 sig2, close2.index = close.index → close2.tickers ≠ [] →
          ∃ core2, run_backtestCore close2 sig2 c years = Except.ok core2
            ∧ core2.invested = core.invested := by
  refine ⟨coreOf close sig c years, run_backtestCore_ok close sig c years h1 h2 h3,
    rfl, rfl, ?_⟩
  intro close2 sig2 hix ht2
  have hw : windowIndex close2 years = windowIndex close years := by
    simp only [windowIndex, hix]
  have h1b : close2.index ≠ [] := by rw [hix]; exact h1
  have h3b : ¬ (windowIndex close2 years).length < 252 := by rw [hw]; exact h3
  refine ⟨coreOf close2 sig2 c years,
    run_backtestCore_ok close2 sig2 c years h1b ht2 h3b, ?_⟩
  show c * (((contributionDays (windowIndex close2 years)).length : Nat) : Rat) = _
  rw [hw]
  rfl

theorem invested_formula_wit :
    ∃ core, run_backtestCore (tblA 252) sigOff 200 5 = Except.ok core
      ∧ core.invested = 200 := by
  obtain ⟨core, hok, hinv, _, _⟩ := invested_formula (tblA 252) sigOff 200 5
    (tblA_index_ne_nil 252 (by norm_num))
    (by intro h; exact List.noConfusion h)
    (by rw [tblA_window_length]; norm_num)
  refine ⟨core, hok, ?_⟩
  rw [hinv, windowIndex_tblA]
  rw [show (252 : Nat) = 251 + 1 from rfl, contributionDays_mkIdx]
  norm_num

/-- C6: the simulator fails with the insufficient-history error exactly when
the windowed index has fewer than 252 rows, fails immediately on an empty
price table, and on failure produces no result. -/
theorem insufficient_history_boundary (close : PriceTable) (sig : Date → Ticker → Bool)
    (c : Rat) (years : Int) :
    ((close.index = [] ∨ close.tickers = []) →
        run_backtestCore close sig c years = Except.error "Close prices are empty.")
    ∧ (close.index ≠ [] → close.tickers ≠ [] →
        ((windowIndex close years).length < 252 →
            run_backtestCore close sig c years
              = Except.error "Not enough data for a meaningful backtest window.")
          ∧ (¬ (windowIndex close years).length < 252 →
              ∃ core, run_backtestCore close sig c years = Except.ok core))
    ∧ (∀ e, run_backtestCore close sig c years = Except.error e →
        ∀ core, run_backtestCore close sig c years ≠ Except.ok core) := by
  refine ⟨run_backtestCore_err_empty close sig c years,
    fun h1 h2 => ⟨run_backtestCore_err_short close sig c years h1 h2,
      fun h3 => ⟨coreOf close sig c years, run_backtestCore_ok close sig c years h1 h2 h3⟩⟩,
    ?_⟩
  intro e he core hok
  rw [he] at hok
  exact Except.noConfusion hok

theorem insufficient_history_boundary_wit :
    run_backtestCore (tblA 251) sigOff 200 5
        = Except.error "Not enough data for a meaningful backtest window."
    ∧ (∃ core, run_backtestCore (tblA 252) sigOff 200 5 = Except.ok core)
    ∧ run_backtestCore tblE sigOff 200 5 = Except.error "Close prices are empty." := by
  refine ⟨?_, ?_, ?_⟩
  · exact ((insufficient_history_boundary (tblA 251) sigOff 200 5).2.1
      (tblA_index_ne_nil 251 (by norm_num)) (by intro h; exact List.noConfusion h)).1
      (by rw [tblA_window_length]; norm_num)
  · exact ((insufficient_history_boundary (tblA 252) sigOff 200 5).2.1
      (tblA_index_ne_nil 252 (by norm_num)) (by intro h; exact List.noConfusion h)).2
      (by rw [tblA_window_length]; norm_num)
  · exact (insufficient_history_boundary tblE sigOff 200 5).1 (Or.inl rfl)

theorem coreOf_curve_sorted (close : PriceTable) (sig : Date → Ticker → Bool) (c : Rat)
    (years : Int)
    (hpx : (windowIndex close years).Pairwise
      (fun a b => daysFromCivil a < daysFromCivil b)) :
    (coreOf close sig c years).equityCurve
      = (simulateAux ⟨close.tickers, close.price, sig, c,
          contributionDays (windowIndex close years)⟩ (windowIndex close years)
            initState).2 := by
  have hpw := pts_pairwise_lt ⟨close.tickers, close.price, sig, c,
    contributionDays (windowIndex close years)⟩ (windowIndex close years) initState hpx
  show sortByDay (dictPairs _) = _
  rw [dictPairs_eq_self _ (hpw.imp (fun h he => absurd (he ▸ h) (lt_irrefl _)))]
  exact sortByDay_eq_self _ (hpw.imp le_of_lt)

/-- C7: the reported CAGR equals
`(final_value / invested) ^ (1 / years) - 1` whenever invested and elapsed
years are positive, and is 0 otherwise; years is the day span between the
last and first equity-curve dates (equal, on a strictly increasing index, to
the span of the windowed index) divided by 365.25. -/
theorem cagr_formula (close : PriceTable) (sig : Date → Ticker → Bool) (c : Rat)
    (years : Int) (h1 : close.index ≠ []) (h2 : close.tickers ≠ [])
    (h3 : ¬ (windowIndex close years).length < 252)
    (hsort : close.index.Pairwise (fun a b => daysFromCivil a < daysFromCivil b)) :
    ∃ core, run_backtestCore close sig c years = Except.ok core
      ∧ core.invested = c * (((contributionDays (windowIndex close years)).length : Nat) : Rat)
      ∧ core.period_years
          = (((daysFromCivil ((windowIndex close years).getLastD ⟨0, 0, 0⟩)
              - daysFromCivil ((windowIndex close years).headD ⟨0, 0, 0⟩) : Int) : Rat))
            / (1461 / 4 : Rat)
      ∧ ((0 < core.invested ∧ 0 < core.period_years) →
          cagrOf core = Real.rpow ((core.final_value : Real) / (core.invested : Real))
            ((1 : Real) / (core.period_years : Real)) - 1)
      ∧ (¬ (0 < core.invested ∧ 0 < core.period_years) → cagrOf core = 0) := by
  have hpx : (windowIndex close years).Pairwise
      (fun a b => daysFromCivil a < daysFromCivil b) :=
    List.Pairwise.sublist (List.filter_sublist _) hsort
  refine ⟨coreOf close sig c years, run_backtestCore_ok close sig c years h1 h2 h3,
    rfl, ?_, ?_, ?_⟩
  · have hcurve := coreOf_curve_sorted close sig c years hpx
    have hmap := simulate_snd_map_fst ⟨close.tickers, close.price, sig, c,
      contributionDays (windowIndex close years)⟩ (windowIndex close years) initState
    show ((daysFromCivil
          (((coreOf close sig c years).equityCurve).getLastD (⟨0, 0, 0⟩, 0)).1
        - daysFromCivil
          (((coreOf close sig c years).equityCurve).headD (⟨0, 0, 0⟩, 0)).1 : Int) : Rat)
        / (1461 / 4 : Rat) = _
    rw [hcurve, headD_fst_of_map _ _ hmap ⟨0, 0, 0⟩ 0,
      getLastD_fst_of_map _ _ hmap ⟨0, 0, 0⟩ 0]
  · intro hpos
    simp only [cagrOf]
    rw [if_pos hpos]
  · intro hneg
    simp only [cagrOf]
    rw [if_neg hneg]

theorem cagr_formula_wit :
    ∃ core, run_backtestCore (tblA 252) sigOff 200 5 = Except.ok core
      ∧ cagrOf core = Real.rpow ((core.final_value : Real) / (core.invested : Real))
          ((1 : Real) / (core.period_years : Real)) - 1 := by
  obtain ⟨core, hok, hinv, hper, hpos, _⟩ := cagr_formula (tblA 252) sigOff 200 5
    (tblA_index_ne_nil 252 (by norm_num))
    (by intro h; exact List.noConfusion h)
    (by rw [tblA_window_length]; norm_num)
    (by show (mkIdx 252).Pairwise _; exact mkIdx_sorted 252)
  refine ⟨core, hok, ?_⟩
  apply hpos
  constructor
  · rw [hinv, windowIndex_tblA, show (252 : Nat) = 251 + 1 from rfl, contributionDays_mkIdx]
    norm_num
  · rw [hper, windowIndex_tblA, show (252 : Nat) = 251 + 1 from rfl,
      mkIdx_getLastD, mkIdx_headD, daysFromCivil_jan2020, daysFromCivil_jan2020]
    norm_num

/-- C10: on a successful run over a strictly increasing index, the first date
of the windowed index is a contribution day (it is the chronological minimum
of its calendar month within the index), the contribution count is at least 1,
and with a positive contribution the invested amount is positive, so the CAGR
degenerate guard cannot fire through invested ≤ 0. -/
theorem first_day_contribution (close : PriceTable) (sig : Date → Ticker → Bool) (c : Rat)
    (years : Int)
    (hsort : close.index.Pairwise (fun a b => daysFromCivil a < daysFromCivil b))
    (h1 : close.index ≠ []) (h2 : close.tickers ≠ [])
    (h3 : ¬ (windowIndex close years).length < 252) (hc : 0 < c) :
    ∃ core d0, run_backtestCore close sig c years = Except.ok core
      ∧ (windowIndex close years).head? = some d0
      ∧ d0 ∈ contributionDays (windowIndex close years)
      ∧ (∀ e ∈ windowIndex close years, monthKey e = monthKey d0 →
          daysFromCivil d0 ≤ daysFromCivil e)
      ∧ 1 ≤ core.monthly_contribution_count
      ∧ 0 < core.invested := by
  have hpx : (windowIndex close years).Pairwise
      (fun a b => daysFromCivil a < daysFromCivil b) :=
    List.Pairwise.sublist (List.filter_sublist _) hsort
  have hne : windowIndex close years ≠ [] := by
    intro h
    apply h3
    rw [h]
    norm_num
  obtain ⟨d0, rest, hW⟩ : ∃ d0 rest, windowIndex close years = d0 :: rest := by
    cases hW : windowIndex close years with
    | nil => exact absurd hW hne
    | cons a l => exact ⟨a, l, rfl⟩
  have hrest : ∀ b ∈ rest, daysFromCivil d0 < daysFromCivil b := by
    have hp2 := hpx
    rw [hW] at hp2
    exact fun b hb => (List.pairwise_cons.mp hp2).1 b hb
  have hd0mem : d0 ∈ contributionDays (windowIndex close years) := by
    apply List.mem_filterMap.mpr
    refine ⟨monthKey d0, ?_, ?_⟩
    · exact List.mem_dedup.mpr (List.mem_map_of_mem monthKey
        (by rw [hW]; exact List.mem_cons_self d0 rest))
    · rw [hW, List.filter_cons_of_pos (by simp)]
      apply minByDay_head
      intro b hb
      exact not_lt_of_gt (hrest b (List.mem_of_mem_filter hb))
  have hcount : (coreOf close sig c years).monthly_contribution_count
      = (contributionDays (windowIndex close years)).length := rfl
  refine ⟨coreOf close sig c years, d0,
    run_backtestCore_ok close sig c years h1 h2 h3, by rw [hW]; rfl, hd0mem, ?_, ?_, ?_⟩
  · intro e he hme
    rw [hW] at he
    rcases List.mem_cons.mp he with h | h
    · rw [h]
    · exact le_of_lt (hrest e h)
  · rw [hcount]
    exact List.length_pos_of_mem hd0mem
  · show 0 < c * (((contributionDays (windowIndex close years)).length : Nat) : Rat)
    apply mul_pos hc
    exact_mod_cast List.length_pos_of_mem hd0mem

theorem first_day_contribution_wit :
    ∃ core d0, run_backtestCore (tblA 252) sigOff 200 5 = Except.ok core
      ∧ (windowIndex (tblA 252) 5).head? = some d0
      ∧ d0 ∈ contributionDays (windowIndex (tblA 252) 5)
      ∧ 1 ≤ core.monthly_contribution_count
      ∧ 0 < core.invested := by
  obtain ⟨core, d0, hok, hh, hm, _, hcount, hinv⟩ :=
    first_day_contribution (tblA 252) sigOff 200 5
      (by show (mkIdx 252).Pairwise _; exact mkIdx_sorted 252)
      (tblA_index_ne_nil 252 (by norm_num))
      (by intro h; exact List.noConfusion h)
      (by rw [tblA_window_length]; norm_num)
      (by norm_num)
  exact ⟨core, d0, hok, hh, hm, hcount, hinv⟩

theorem optGT_eq_true (a b : Option Rat) :
    optGT a b = true ↔ ∃ x y, a = some x ∧ b = some y ∧ y < x := by
  cases a <;> cases b <;> simp [optGT]

/-- C5: the built signal is true at a row and ticker iff the close, the
200-period moving average and the moving average 20 rows earlier are all
defined, with close above the average and the average above its value 20
rows earlier; in particular every row before the 200-period warm-up
completes carries a false signal. -/
theorem signal_characterization (T : PriceTable) (i : Nat) (t : Ticker) :
    (signalAt T i t = true ↔
      ∃ c m m20, closeCol T t i = some c ∧ dmaAt T t i = some m
        ∧ 20 ≤ i ∧ dmaAt T t (i - 20) = some m20
        ∧ m < c ∧ m20 < m)
    ∧ (i + 1 < 200 → signalAt T i t = false) := by
  constructor
  · rw [signalAt, Bool.and_eq_true, optGT_eq_true, optGT_eq_true]
    constructor
    · rintro ⟨⟨c, m, hc, hm, hmc⟩, ⟨m2, m20, hm2, hm20, hlt⟩⟩
      have hmm : m2 = m := by
        rw [hm] at hm2
        exact (Option.some_inj.mp hm2).symm
      by_cases h20 : 20 ≤ i
      · rw [if_pos h20] at hm20
        exact ⟨c, m, m20, hc, hm, h20, hm20, hmc, hmm ▸ hlt⟩
      · rw [if_neg h20] at hm20
        exact Option.noConfusion hm20
    · rintro ⟨c, m, m20, hc, hm, h20, hm20, hlt1, hlt2⟩
      exact ⟨⟨c, m, hc, hm, hlt1⟩,
        ⟨m, m20, hm, by rw [if_pos h20]; exact hm20, hlt2⟩⟩
  · intro hw
    have hnone : dmaAt T t i = none := by
      rw [dmaAt, rollingMeanAt, if_neg (by omega)]
    rw [signalAt, hnone]
    cases closeCol T t i <;> simp [optGT]

theorem signal_characterization_wit : signalAt tblTiny 0 "A" = false :=
  (signal_characterization tblTiny 0 "A").2 (by norm_num)

/-- C9: the market filter (when enabled) is a pure AND-mask: the output index
is the input dates also present in the proxy table's index; on a retained
date with a false proxy signal every ticker's output is false, with a true
proxy signal the output row equals the input row, and the output is never
true where the input was false. -/
theorem market_filter_and_mask (S : SigTable) (mc : PriceTable) :
    (apply_market_filter true S mc).index = S.index.filter (fun dt => dt ∈ mc.index)
    ∧ (apply_market_filter true S mc).tickers = S.tickers
    ∧ ∀ dt ∈ (apply_market_filter true S mc).index, ∀ t,
        (dateSignal mc (mc.tickers.headD "") dt = false →
            (apply_market_filter true S mc).sig dt t = false)
        ∧ (dateSignal mc (mc.tickers.headD "") dt = true →
            (apply_market_filter true S mc).sig dt t = S.sig dt t)
        ∧ ((apply_market_filter true S mc).sig dt t = true → S.sig dt t = true) := by
  refine ⟨rfl, rfl, ?_⟩
  intro dt _ t
  refine ⟨?_, ?_, ?_⟩
  · intro hf
    show (if dateSignal mc (mc.tickers.headD "") dt = true then S.sig dt t else false)
      = false
    rw [hf]
    simp
  · intro ht
    show (if dateSignal mc (mc.tickers.headD "") dt = true then S.sig dt t else false)
      = S.sig dt t
    rw [ht]
    simp
  · intro htrue
    by_cases hms : dateSignal mc (mc.tickers.headD "") dt = true
    · have : (if dateSignal mc (mc.tickers.headD "") dt = true then S.sig dt t else false)
          = true := htrue
      rwa [if_pos hms] at this
    · have : (if dateSignal mc (mc.tickers.headD "") dt = true then S.sig dt t else false)
          = true := htrue
      rw [if_neg hms] at this
      exact Bool.noConfusion this

theorem market_filter_and_mask_wit :
    (apply_market_filter true sigTblW tblTiny).index
        = [dW1, dW2].filter (fun dt => dt ∈ tblTiny.index)
    ∧ (apply_market_filter true sigTblW tblTiny).sig dW1 "A" = false := by
  refine ⟨(market_filter_and_mask sigTblW tblTiny).1, ?_⟩
  exact ((market_filter_and_mask sigTblW tblTiny).2.2 dW1 (by decide) "A").1 (by decide)
